import Mathlib

/-!
# WPJSONEXT: the wp-json walker, sorter, writer and batch driver

A shallow embedding of `src/main.go`.

Modelling conventions.

* A Go `string` is a Lean `String`.  The strings the program compares come out of
  `encoding/json`, which only produces valid UTF-8; for valid UTF-8 the byte-wise order of
  Go's `<` coincides with the code-point order used here.
* The value `json.Unmarshal` builds for an `interface{}` is the tree `JSON`.  A Go map has no
  iteration order of its own: the field list of `JSON.obj` is the order in which one particular
  `range` over the map visits its entries, and `Reorder` relates the trees that differ only in
  that order.
* A Go panic (the unchecked `value.(string)`) is the result `none`.
* The network and the file system are parameters: `httpGet` gives the outcome of
  `http.Get` + `ioutil.ReadAll`, and `fails k` tells whether the `k`-th file operation of a run
  fails.
-/

namespace WPJSONEXT

/-! ## Data model -/

/-- The generic value `encoding/json` decodes into an `interface{}`: `nil`, `bool`, `float64`
(the walk never looks at the number, it is kept as an integer tag), `string`,
`[]interface{}` and `map[string]interface{}` (entries in the order `range` visits them). -/
inductive JSON where
  | null : JSON
  | bool (b : Bool) : JSON
  | number (n : Int) : JSON
  | str (s : String) : JSON
  | arr (items : List JSON) : JSON
  | obj (fields : List (String × JSON)) : JSON

/-- The record `Result` of `main.go`: the two extracted lists. -/
structure Result where
  Endpoints : List String
  HrefURLs : List String
deriving DecidableEq, Repr

/-! ## Fetcher: the request URL -/

/-- Go's `strings.TrimRight(s, cutset)`: `s` without its trailing code points that occur in
`cutset`. -/
def TrimRight (s cutset : String) : String :=
  ⟨s.data.rdropWhile (fun c => cutset.data.contains c)⟩

/-- The URL `ScrapeData` passes to `http.Get` (line 23). -/
def requestURL (url : String) : String :=
  TrimRight url "/" ++ "/wp-json"

/-! ## Tree walker -/

mutual
/-- The closure `traverse` of `ScrapeData` (lines 49-68), with the captured `results`
threaded through; `none` is the panic of `value.(string)`. -/
def traverse : JSON → String → Result → Option Result
  | .obj fields, path, results => traverseFields fields path results
  | .arr items, path, results => traverseItems items path results
  | _, path, results =>
    if path ≠ "" then some { results with Endpoints := results.Endpoints ++ [path] }
    else some results
/-- The loop `for key, value := range v` of the map case (lines 52-58). -/
def traverseFields : List (String × JSON) → String → Result → Option Result
  | [], _, results => some results
  | (key, value) :: rest, path, results =>
    if key = "href" then
      match value with
      | .str s => traverseFields rest path { results with HrefURLs := results.HrefURLs ++ [s] }
      | _ => none
    else
      match traverse value (path ++ "/" ++ key) results with
      | some results1 => traverseFields rest path results1
      | none => none
/-- The loop `for _, item := range v` of the slice case (lines 60-62). -/
def traverseItems : List JSON → String → Result → Option Result
  | [], _, results => some results
  | item :: rest, path, results =>
    match traverse item path results with
    | some results1 => traverseItems rest path results1
    | none => none
end

/-- The two lists as `ScrapeData` initialises them (lines 43-45). -/
def emptyResult : Result := ⟨[], []⟩

/-- The walk of a document: `traverse(data, "")` on the freshly initialised lists (line 71). -/
def walk (d : JSON) : Option Result := traverse d "" emptyResult

/-- What `json.Unmarshal(body, &data)` leaves in `data : map[string]interface{}` (line 37).
The body is given already parsed (`none`: the bytes are not JSON).  An object fills the map,
`null` leaves the map nil, and any other value is an `UnmarshalTypeError`. -/
def unmarshalMap : Option JSON → Except String (List (String × JSON))
  | none => .error "invalid character"
  | some (.obj fields) => .ok fields
  | some .null => .ok []
  | some (.bool _) => .error "json: cannot unmarshal bool into Go value of type map[string]interface \x7b\x7d"
  | some (.number _) => .error "json: cannot unmarshal number into Go value of type map[string]interface \x7b\x7d"
  | some (.str _) => .error "json: cannot unmarshal string into Go value of type map[string]interface \x7b\x7d"
  | some (.arr _) => .error "json: cannot unmarshal array into Go value of type map[string]interface \x7b\x7d"

/-- The function `ScrapeData` (lines 21-74).  `httpGet` is the network: the body read from the
response, or the error of `http.Get` / `ioutil.ReadAll`.  The outer `none` is a panic, the
inner `Except` the returned `(Result, error)`. -/
def ScrapeData (httpGet : String → Except String (Option JSON)) (url : String) :
    Option (Except String Result) :=
  match httpGet (requestURL url) with
  | .error e => some (.error e)
  | .ok body =>
    match unmarshalMap body with
    | .error e => some (.error e)
    | .ok data =>
      match traverse (.obj data) "" emptyResult with
      | none => none
      | some results => some (.ok results)

/-! ## Sorter -/

/-- Go's `a > b` on strings. -/
def strGt (a b : String) : Bool := decide (b.toList < a.toList)

/-- The exchange `strings[i], strings[j] = strings[j], strings[i]` (line 90). -/
def swapAt (s : List String) (i j : Nat) : List String :=
  (s.set i (s.getD j "")).set j (s.getD i "")

/-- The inner loop of `sortStrings` (lines 88-92): `n` more rounds, the next one at index `j`. -/
def innerLoop (i : Nat) : Nat → Nat → List String → List String
  | 0, _, s => s
  | n + 1, j, s =>
    innerLoop i n (j + 1) (if strGt (s.getD i "") (s.getD j "") then swapAt s i j else s)

/-- The outer loop of `sortStrings` (lines 87-93): `n` more rounds, the next one at index `i`. -/
def outerLoop : Nat → Nat → List String → List String
  | 0, _, s => s
  | n + 1, i, s => outerLoop n (i + 1) (innerLoop i (s.length - (i + 1)) (i + 1) s)

/-- The function `sortStrings` (lines 86-95). -/
def sortStrings (strings : List String) : List String :=
  outerLoop strings.length 0 strings

/-- The function `SortResults` (lines 77-83). -/
def SortResults (results : List Result) : List Result :=
  results.map fun r => ⟨sortStrings r.Endpoints, sortStrings r.HrefURLs⟩

/-! ## Writer -/

/-- A file operation of `WriteResults`: `os.Create(name)` or `fmt.Fprintln(file, line)` on the
file created under `name`. -/
inductive IOOp where
  | create (name : String) : IOOp
  | write (name : String) (line : String) : IOOp
deriving DecidableEq, Repr

/-- An operation that was carried out, with its outcome (`ok = false`: it returned an error). -/
structure IOEvent where
  op : IOOp
  ok : Bool
deriving DecidableEq, Repr

/-- The working directory during one call of `WriteResults`: the text of every file that
exists, and the operations carried out so far. -/
structure Disk where
  files : String → Option String
  log : List IOEvent

/-- The call `os.Create(name)`: on success the file exists and is empty (line 103, 109).
The returned flag is `err == nil`. -/
def osCreate (fails : Nat → Bool) (d : Disk) (name : String) : Bool × Disk :=
  if fails d.log.length then
    (false, { d with log := d.log ++ [⟨.create name, false⟩] })
  else
    (true, { files := fun n => if n = name then some "" else d.files n,
             log := d.log ++ [⟨.create name, true⟩] })

/-- The call `fmt.Fprintln(file, line)` (lines 116, 120): on success `line` and a newline are
appended to the file; the error it returns is dropped by the caller, so only the disk is
returned. -/
def Fprintln (fails : Nat → Bool) (d : Disk) (name line : String) : Disk :=
  if fails d.log.length then
    { d with log := d.log ++ [⟨.write name line, false⟩] }
  else
    { files := fun n => if n = name then (d.files n).map (fun t => t ++ line ++ "\n")
                        else d.files n,
      log := d.log ++ [⟨.write name line, true⟩] }

/-- The name `fmt.Sprintf("endpoints_%d.txt", i)` (line 100). -/
def endpointsFileName (i : Nat) : String := "endpoints_" ++ toString i ++ ".txt"

/-- The name `fmt.Sprintf("href_urls_%d.txt", i)` (line 101). -/
def hrefURLsFileName (i : Nat) : String := "href_urls_" ++ toString i ++ ".txt"

/-- The loops `for _, endpoint := range result.Endpoints` and
`for _, hrefURL := range result.HrefURLs` (lines 115-121). -/
def writeLines (fails : Nat → Bool) (name : String) : List String → Disk → Disk
  | [], d => d
  | line :: rest, d => writeLines fails name rest (Fprintln fails d name line)

/-- The loop `for i, result := range results` of `WriteResults` (lines 99-122), from index
`i` on; the first component is the returned error (`none` for `nil`). -/
def writeLoop (fails : Nat → Bool) : Nat → List Result → Disk → Option String × Disk
  | _, [], d => (none, d)
  | i, result :: rest, d =>
    match osCreate fails d (endpointsFileName i) with
    | (false, d1) => (some "create failed", d1)
    | (true, d1) =>
      match osCreate fails d1 (hrefURLsFileName i) with
      | (false, d2) => (some "create failed", d2)
      | (true, d2) =>
        writeLoop fails (i + 1) rest
          (writeLines fails (hrefURLsFileName i) result.HrefURLs
            (writeLines fails (endpointsFileName i) result.Endpoints d2))

/-- The function `WriteResults` (lines 98-124), run on a directory holding `files`. -/
def WriteResults (fails : Nat → Bool) (results : List Result)
    (files : String → Option String) : Option String × Disk :=
  writeLoop fails 0 results ⟨files, []⟩

/-! ## Driver: the batch loop -/

/-- What one call `ScrapeData(url)` of the batch loop comes to: `none` when it panics,
otherwise the returned `(Result, error)`. -/
abbrev Outcome := Option (Except String Result)

/-- The loop `for scanner.Scan()` of `main` (lines 163-171) over the lines the scanner yields,
each paired with the outcome of its `ScrapeData` call; `data` is the slice accumulated so far.
A panic ends the process: `none`. -/
def batchLoop : List (String × Outcome) → List Result → Option (List Result)
  | [], data => some data
  | (_, none) :: _, _ => none
  | (_, some (.error _)) :: rest, data => batchLoop rest data
  | (_, some (.ok scrapedData)) :: rest, data => batchLoop rest (data ++ [scrapedData])

/-! ## Specification-level notions for the walker -/

/-- Whether the value is a JSON string. -/
def JSON.isStr : JSON → Bool
  | .str _ => true
  | _ => false

/-- The text of a JSON string. -/
def JSON.strOf : JSON → Option String
  | .str s => some s
  | _ => none

/-- Whether the value is a scalar leaf: a string, number, boolean or null. -/
def JSON.isScalar : JSON → Bool
  | .arr _ => false
  | .obj _ => false
  | _ => true

/-- The node `n` is reached from the root `d` through array elements and through object
entries whose key is not `"href"`. -/
inductive Reaches (d : JSON) : JSON → Prop
  | root : Reaches d d
  | item {items : List JSON} {x : JSON} :
      Reaches d (.arr items) → x ∈ items → Reaches d x
  | field {fields : List (String × JSON)} {key : String} {value : JSON} :
      Reaches d (.obj fields) → (key, value) ∈ fields → key ≠ "href" → Reaches d value

mutual
/-- One key path (the object keys from the root down, array steps add nothing) per scalar leaf
that is reached through array elements and non-href entries, in visiting order. -/
def leafKeyPaths : JSON → List (List String)
  | .obj fields => fieldLeafKeyPaths fields
  | .arr items => itemLeafKeyPaths items
  | _ => [[]]
/-- The key paths of the leaves below the entries of an object. -/
def fieldLeafKeyPaths : List (String × JSON) → List (List String)
  | [] => []
  | (key, value) :: rest =>
    (if key = "href" then [] else (leafKeyPaths value).map (fun ks => key :: ks))
      ++ fieldLeafKeyPaths rest
/-- The key paths of the leaves below the elements of an array. -/
def itemLeafKeyPaths : List JSON → List (List String)
  | [] => []
  | item :: rest => leafKeyPaths item ++ itemLeafKeyPaths rest
end

mutual
/-- The values stored under the key `"href"` in the objects that are reached through array
elements and non-href entries, in visiting order. -/
def hrefValues : JSON → List JSON
  | .obj fields => fieldHrefValues fields
  | .arr items => itemHrefValues items
  | _ => []
/-- The href values found in and below the entries of an object. -/
def fieldHrefValues : List (String × JSON) → List JSON
  | [] => []
  | (key, value) :: rest =>
    (if key = "href" then [value] else hrefValues value) ++ fieldHrefValues rest
/-- The href values found below the elements of an array. -/
def itemHrefValues : List JSON → List JSON
  | [] => []
  | item :: rest => hrefValues item ++ itemHrefValues rest
end

mutual
/-- Every value stored under a key named `"href"`, anywhere in the document, is a string. -/
def hrefsAreStrings : JSON → Bool
  | .obj fields => fieldsHrefsAreStrings fields
  | .arr items => itemsHrefsAreStrings items
  | _ => true
/-- The same for the entries of an object. -/
def fieldsHrefsAreStrings : List (String × JSON) → Bool
  | [] => true
  | (key, value) :: rest =>
    (decide (key ≠ "href") || value.isStr) && hrefsAreStrings value
      && fieldsHrefsAreStrings rest
/-- The same for the elements of an array. -/
def itemsHrefsAreStrings : List JSON → Bool
  | [] => true
  | item :: rest => hrefsAreStrings item && itemsHrefsAreStrings rest
end

mutual
/-- No object anywhere in the document has a key named `"href"`. -/
def noHrefKey : JSON → Bool
  | .obj fields => fieldsNoHrefKey fields
  | .arr items => itemsNoHrefKey items
  | _ => true
/-- The same for the entries of an object. -/
def fieldsNoHrefKey : List (String × JSON) → Bool
  | [] => true
  | (key, value) :: rest => decide (key ≠ "href") && noHrefKey value && fieldsNoHrefKey rest
/-- The same for the elements of an array. -/
def itemsNoHrefKey : List JSON → Bool
  | [] => true
  | item :: rest => noHrefKey item && itemsNoHrefKey rest
end

/-- The endpoint of a key path: `"/" + k1 + "/" + k2 + ...`. -/
def endpointOf : List String → String
  | [] => ""
  | key :: rest => "/" ++ key ++ endpointOf rest

/-- The endpoints the specification asks for: one per reached scalar leaf whose key path has at
least one key. -/
def specEndpoints (d : JSON) : List String :=
  ((leafKeyPaths d).filter fun ks => ks ≠ []).map endpointOf

/-- The key paths of the leaf scalars that are not themselves the document root. -/
def nonRootLeafKeyPaths (d : JSON) : List (List String) :=
  if d.isScalar then [] else leafKeyPaths d

/-- The endpoints produced from the key paths `ks` when the walk stands at `path`. -/
def pathsFrom (path : String) (ks : List (List String)) : List String :=
  (ks.map fun k => path ++ endpointOf k).filter fun s => s ≠ ""

/-- The result of a walk that meets the href values `hs` and the leaves `ks`, started at
`path` with the lists `acc`. -/
def walked (hs : List JSON) (path : String) (acc : Result) (ks : List (List String)) :
    Option Result :=
  if hs.all JSON.isStr then
    some ⟨acc.Endpoints ++ pathsFrom path ks, acc.HrefURLs ++ hs.filterMap JSON.strOf⟩
  else none

mutual
/-- Two documents that differ only in the order in which the entries of their objects are
visited. -/
inductive Reorder : JSON → JSON → Prop
  | scalar (d : JSON) : d.isScalar = true → Reorder d d
  | arr {xs ys : List JSON} : ReorderItems xs ys → Reorder (.arr xs) (.arr ys)
  | obj {fs gs hs : List (String × JSON)} :
      ReorderFields fs gs → gs.Perm hs → Reorder (.obj fs) (.obj hs)
/-- Element-wise `Reorder` of two arrays. -/
inductive ReorderItems : List JSON → List JSON → Prop
  | nil : ReorderItems [] []
  | cons {x y : JSON} {xs ys : List JSON} :
      Reorder x y → ReorderItems xs ys → ReorderItems (x :: xs) (y :: ys)
/-- Entry-wise `Reorder` of the values of two field lists with the same keys. -/
inductive ReorderFields : List (String × JSON) → List (String × JSON) → Prop
  | nil : ReorderFields [] []
  | cons {k : String} {v w : JSON} {fs gs : List (String × JSON)} :
      Reorder v w → ReorderFields fs gs → ReorderFields ((k, v) :: fs) ((k, w) :: gs)
end

/-- The leaves `ka`, `kb` and the href values `ha`, `hb` of two walks agree up to order: same
key paths, same href strings, and a non-string href value in one exactly when in the other. -/
def Sim (ka kb : List (List String)) (ha hb : List JSON) : Prop :=
  ka.Perm kb ∧ (ha.filterMap JSON.strOf).Perm (hb.filterMap JSON.strOf)
    ∧ ha.all JSON.isStr = hb.all JSON.isStr

/-! ## Specification-level notions for the writer and the driver -/

/-- The text of a file that holds the entries `l`, one per line: every entry followed by a
newline. -/
def fileText : List String → String
  | [] => ""
  | line :: rest => line ++ "\n" ++ fileText rest

/-- The number of lines of a text: the number of its newline characters. -/
def lineCount (text : String) : Nat := text.data.count '\n'

/-- The file operations `WriteResults` has to carry out for the results `rs`, the first of
them at batch index `i`. -/
def plannedOps : Nat → List Result → List IOOp
  | _, [] => []
  | i, r :: rest =>
    [IOOp.create (endpointsFileName i), IOOp.create (hrefURLsFileName i)]
      ++ r.Endpoints.map (IOOp.write (endpointsFileName i))
      ++ r.HrefURLs.map (IOOp.write (hrefURLsFileName i))
      ++ plannedOps (i + 1) rest

/-- The effect of one carried-out operation on the files: a failed one changes nothing. -/
def applyEvent (files : String → Option String) (e : IOEvent) : String → Option String :=
  match e.ok, e.op with
  | false, _ => files
  | true, .create name => fun n => if n = name then some "" else files n
  | true, .write name line =>
    fun n => if n = name then (files n).map (fun t => t ++ line ++ "\n") else files n

/-- The files left by the operations of `log`, carried out in order on `files`. -/
def replay (files : String → Option String) (log : List IOEvent) : String → Option String :=
  log.foldl applyEvent files

/-- The names of the files that were created, in order of creation. -/
def createdNames (log : List IOEvent) : List String :=
  log.filterMap fun e =>
    match e.ok, e.op with
    | true, .create name => some name
    | _, _ => none

/-- The number written by the decimal digits `cs`, continuing from `a`. -/
def digitsVal (cs : List Char) (a : Nat) : Nat :=
  cs.foldl (fun a c => 10 * a + (c.toNat - 48)) a

/-- Whether the call of a line of the batch file returned a Result. -/
def succeeded (call : String × Outcome) : Bool :=
  match call.2 with
  | some (.ok _) => true
  | _ => false

/-- The Result a call contributes to the batch, if it returned one. -/
def okResult (call : String × Outcome) : Option Result :=
  match call.2 with
  | some (.ok r) => some r
  | _ => none

/-! # Lemmas -/

/-! ## The sorting loops -/

theorem strGt_iff (a b : String) : strGt a b = true ↔ b < a := by
  simp [strGt, String.lt_iff_toList_lt]

theorem getD_at_length (pre : List String) (x : String) (rest : List String) (d : String) :
    (pre ++ x :: rest).getD pre.length d = x := by
  induction pre with
  | nil => rfl
  | cons a pre ih => simpa using ih

theorem getD_past (pre done : List String) (x y : String) (ys : List String) (d : String) :
    (pre ++ x :: (done ++ y :: ys)).getD (pre.length + 1 + done.length) d = y := by
  have h : pre ++ x :: (done ++ y :: ys) = (pre ++ x :: done) ++ y :: ys := by simp
  have hl : pre.length + 1 + done.length = (pre ++ x :: done).length := by simp; omega
  rw [h, hl, getD_at_length]

theorem set_at_length (pre : List String) (x a : String) (rest : List String) :
    (pre ++ x :: rest).set pre.length a = pre ++ a :: rest := by
  simp

theorem set_past (pre done : List String) (x y a : String) (ys : List String) :
    (pre ++ x :: (done ++ y :: ys)).set (pre.length + 1 + done.length) a
      = pre ++ x :: (done ++ a :: ys) := by
  have h : pre ++ x :: (done ++ y :: ys) = (pre ++ x :: done) ++ y :: ys := by simp
  have hl : pre.length + 1 + done.length = (pre ++ x :: done).length := by simp; omega
  rw [h, hl, set_at_length]; simp

theorem swapAt_spec (pre done : List String) (x y : String) (ys : List String) :
    swapAt (pre ++ x :: (done ++ y :: ys)) pre.length (pre.length + 1 + done.length)
      = pre ++ y :: (done ++ x :: ys) := by
  unfold swapAt
  rw [getD_at_length, getD_past, set_at_length, set_past]

theorem innerLoop_spec (todo : List String) : ∀ (x : String) (done pre : List String),
    (∀ y ∈ done, x ≤ y) →
    ∃ m r, innerLoop pre.length todo.length (pre.length + 1 + done.length)
        (pre ++ x :: (done ++ todo)) = pre ++ m :: (done ++ r)
      ∧ (m :: r).Perm (x :: todo) ∧ (∀ y ∈ done ++ r, m ≤ y) := by
  induction todo with
  | nil =>
    intro x done pre h
    exact ⟨x, [], by simp [innerLoop], List.Perm.refl _, by simpa using h⟩
  | cons y ys ih =>
    intro x done pre h
    simp only [List.length_cons, innerLoop, getD_at_length, getD_past]
    by_cases hxy : strGt x y = true
    · have hlt : y < x := (strGt_iff x y).1 hxy
      rw [if_pos hxy, swapAt_spec]
      obtain ⟨m, r, h1, h2, h3⟩ := ih y (done ++ [x]) pre (by
        intro z hz
        rcases List.mem_append.1 hz with hz | hz
        · exact le_trans hlt.le (h z hz)
        · simp at hz; subst hz; exact hlt.le)
      refine ⟨m, x :: r, ?_, ?_, ?_⟩
      · have e1 : pre.length + 1 + done.length + 1 = pre.length + 1 + (done ++ [x]).length := by
          simp; omega
        have e2 : pre ++ y :: (done ++ x :: ys) = pre ++ y :: ((done ++ [x]) ++ ys) := by simp
        rw [e1, e2, h1]; simp
      · exact (List.Perm.swap x m r).trans (h2.cons x)
      · intro z hz; apply h3; simpa using hz
    · have hle : x ≤ y := by
        rw [← not_lt]; intro hlt; exact hxy ((strGt_iff x y).2 hlt)
      rw [if_neg hxy]
      obtain ⟨m, r, h1, h2, h3⟩ := ih x (done ++ [y]) pre (by
        intro z hz
        rcases List.mem_append.1 hz with hz | hz
        · exact h z hz
        · simp at hz; subst hz; exact hle)
      refine ⟨m, y :: r, ?_, ?_, ?_⟩
      · have e1 : pre.length + 1 + done.length + 1 = pre.length + 1 + (done ++ [y]).length := by
          simp; omega
        have e2 : pre ++ x :: (done ++ y :: ys) = pre ++ x :: ((done ++ [y]) ++ ys) := by simp
        rw [e1, e2, h1]; simp
      · exact ((List.Perm.swap y m r).trans (h2.cons y)).trans (List.Perm.swap x y ys)
      · intro z hz; apply h3; simpa using hz

theorem outerLoop_spec (n : Nat) : ∀ (pre rest : List String), rest.length = n →
    ∃ out, outerLoop n pre.length (pre ++ rest) = pre ++ out ∧ out.Perm rest
      ∧ out.Sorted (· ≤ ·) := by
  induction n with
  | zero =>
    intro pre rest h
    have : rest = [] := List.length_eq_zero.1 h
    subst this
    exact ⟨[], by simp [outerLoop], List.Perm.refl _, List.sorted_nil⟩
  | succ n ih =>
    intro pre rest h
    match rest, h with
    | x :: xs, h =>
      have hx : xs.length = n := by simpa using h
      obtain ⟨m, r, h1, h2, h3⟩ := innerLoop_spec xs x [] pre (by simp)
      simp only [List.length_nil, Nat.add_zero, List.nil_append] at h1 h3
      have hr : r.length = n := by
        have := h2.length_eq
        simp at this; omega
      obtain ⟨out, o1, o2, o3⟩ := ih (pre ++ [m]) r hr
      refine ⟨m :: out, ?_, ?_, ?_⟩
      · have e : (pre ++ x :: xs).length - (pre.length + 1) = xs.length := by simp; omega
        simp only [outerLoop, e, h1]
        have e2 : pre ++ m :: r = (pre ++ [m]) ++ r := by simp
        have e3 : pre.length + 1 = (pre ++ [m]).length := by simp
        rw [e2, e3, o1]; simp
      · exact (o2.cons m).trans h2
      · refine List.sorted_cons.2 ⟨?_, o3⟩
        intro z hz
        exact h3 z (o2.subset hz)

/-! ## The walk in closed form -/

theorem pathsFrom_append (p : String) (a b : List (List String)) :
    pathsFrom p (a ++ b) = pathsFrom p a ++ pathsFrom p b := by
  simp [pathsFrom]

theorem pathsFrom_cons_key (p key : String) (a : List (List String)) :
    pathsFrom p (a.map fun ks => key :: ks) = pathsFrom (p ++ "/" ++ key) a := by
  simp [pathsFrom, endpointOf, List.map_map, Function.comp_def, String.append_assoc]

mutual
theorem traverse_eq : ∀ (d : JSON) (path : String) (acc : Result),
    traverse d path acc = walked (hrefValues d) path acc (leafKeyPaths d)
  | .obj fields, path, acc => by
    rw [traverse, hrefValues, leafKeyPaths]; exact traverseFields_eq fields path acc
  | .arr items, path, acc => by
    rw [traverse, hrefValues, leafKeyPaths]; exact traverseItems_eq items path acc
  | .null, path, acc => by
    by_cases h : path = "" <;> simp [traverse, hrefValues, leafKeyPaths, walked, pathsFrom, endpointOf, h]
  | .bool _, path, acc => by
    by_cases h : path = "" <;> simp [traverse, hrefValues, leafKeyPaths, walked, pathsFrom, endpointOf, h]
  | .number _, path, acc => by
    by_cases h : path = "" <;> simp [traverse, hrefValues, leafKeyPaths, walked, pathsFrom, endpointOf, h]
  | .str _, path, acc => by
    by_cases h : path = "" <;> simp [traverse, hrefValues, leafKeyPaths, walked, pathsFrom, endpointOf, h]
theorem traverseFields_eq : ∀ (fields : List (String × JSON)) (path : String) (acc : Result),
    traverseFields fields path acc
      = walked (fieldHrefValues fields) path acc (fieldLeafKeyPaths fields)
  | [], path, acc => by
    simp [traverseFields, fieldHrefValues, fieldLeafKeyPaths, walked, pathsFrom]
  | (key, value) :: rest, path, acc => by
    by_cases hk : key = "href"
    · subst hk
      cases value <;>
        simp [traverseFields, fieldHrefValues, fieldLeafKeyPaths, walked, traverseFields_eq rest,
          JSON.isStr, JSON.strOf]
    · simp only [traverseFields, if_neg hk, fieldHrefValues, fieldLeafKeyPaths,
        traverse_eq value, pathsFrom_append, pathsFrom_cons_key]
      by_cases hv : (hrefValues value).all JSON.isStr = true
      · simp [walked, hv, traverseFields_eq rest, pathsFrom_append, pathsFrom_cons_key]
      · simp [walked, hv]
theorem traverseItems_eq : ∀ (items : List JSON) (path : String) (acc : Result),
    traverseItems items path acc
      = walked (itemHrefValues items) path acc (itemLeafKeyPaths items)
  | [], path, acc => by
    simp [traverseItems, itemHrefValues, itemLeafKeyPaths, walked, pathsFrom]
  | item :: rest, path, acc => by
    simp only [traverseItems, itemHrefValues, itemLeafKeyPaths, traverse_eq item,
      pathsFrom_append]
    by_cases hv : (hrefValues item).all JSON.isStr = true
    · simp [walked, hv, traverseItems_eq rest, pathsFrom_append]
    · simp [walked, hv]
end

theorem endpointOf_eq_empty (ks : List String) : endpointOf ks = "" ↔ ks = [] := by
  cases ks with
  | nil => simp [endpointOf]
  | cons k rest =>
    simp only [endpointOf, reduceCtorEq, iff_false]
    intro h
    have := congrArg String.data h
    simp at this

theorem pathsFrom_root (ks : List (List String)) :
    pathsFrom "" ks = (ks.filter fun k => k ≠ []).map endpointOf := by
  unfold pathsFrom
  simp only [String.empty_append]
  rw [List.filter_map]
  congr 1
  apply List.filter_congr
  intro k _
  simp [Function.comp, endpointOf_eq_empty]

theorem walk_eq (d : JSON) :
    walk d = if (hrefValues d).all JSON.isStr then
      some ⟨specEndpoints d, (hrefValues d).filterMap JSON.strOf⟩ else none := by
  simp [walk, traverse_eq, walked, emptyResult, pathsFrom_root, specEndpoints]

mutual
theorem hrefsAreStrings_all : ∀ (d : JSON), hrefsAreStrings d = true →
    (hrefValues d).all JSON.isStr = true
  | .obj fields, h => by
    rw [hrefsAreStrings] at h; rw [hrefValues]; exact fieldsHrefsAreStrings_all fields h
  | .arr items, h => by
    rw [hrefsAreStrings] at h; rw [hrefValues]; exact itemsHrefsAreStrings_all items h
  | .null, _ => by simp [hrefValues]
  | .bool _, _ => by simp [hrefValues]
  | .number _, _ => by simp [hrefValues]
  | .str _, _ => by simp [hrefValues]
theorem fieldsHrefsAreStrings_all : ∀ (fields : List (String × JSON)),
    fieldsHrefsAreStrings fields = true → (fieldHrefValues fields).all JSON.isStr = true
  | [], _ => by simp [fieldHrefValues]
  | (key, value) :: rest, h => by
    simp only [fieldsHrefsAreStrings, Bool.and_eq_true, Bool.or_eq_true, decide_eq_true_eq] at h
    obtain ⟨⟨h1, h2⟩, h3⟩ := h
    have ih := fieldsHrefsAreStrings_all rest h3
    have iv := hrefsAreStrings_all value h2
    by_cases hk : key = "href"
    · rcases h1 with h1 | h1
      · exact absurd hk h1
      · simp [fieldHrefValues, hk, h1, ih]
    · simp [fieldHrefValues, hk, List.all_append, iv, ih]
theorem itemsHrefsAreStrings_all : ∀ (items : List JSON),
    itemsHrefsAreStrings items = true → (itemHrefValues items).all JSON.isStr = true
  | [], _ => by simp [itemHrefValues]
  | item :: rest, h => by
    simp only [itemsHrefsAreStrings, Bool.and_eq_true] at h
    have ih := itemsHrefsAreStrings_all rest h.2
    have iv := hrefsAreStrings_all item h.1
    simp [itemHrefValues, List.all_append, iv, ih]
end

mutual
theorem noHrefKey_hrefValues : ∀ (d : JSON), noHrefKey d = true → hrefValues d = []
  | .obj fields, h => by
    rw [noHrefKey] at h; rw [hrefValues]; exact fieldsNoHrefKey_hrefValues fields h
  | .arr items, h => by
    rw [noHrefKey] at h; rw [hrefValues]; exact itemsNoHrefKey_hrefValues items h
  | .null, _ => by simp [hrefValues]
  | .bool _, _ => by simp [hrefValues]
  | .number _, _ => by simp [hrefValues]
  | .str _, _ => by simp [hrefValues]
theorem fieldsNoHrefKey_hrefValues : ∀ (fields : List (String × JSON)),
    fieldsNoHrefKey fields = true → fieldHrefValues fields = []
  | [], _ => by simp [fieldHrefValues]
  | (key, value) :: rest, h => by
    simp only [fieldsNoHrefKey, Bool.and_eq_true, decide_eq_true_eq] at h
    obtain ⟨⟨h1, h2⟩, h3⟩ := h
    simp [fieldHrefValues, h1, noHrefKey_hrefValues value h2,
      fieldsNoHrefKey_hrefValues rest h3]
theorem itemsNoHrefKey_hrefValues : ∀ (items : List JSON),
    itemsNoHrefKey items = true → itemHrefValues items = []
  | [], _ => by simp [itemHrefValues]
  | item :: rest, h => by
    simp only [itemsNoHrefKey, Bool.and_eq_true] at h
    simp [itemHrefValues, noHrefKey_hrefValues item h.1, itemsNoHrefKey_hrefValues rest h.2]
end

theorem map_str_filterMap (hs : List JSON) (h : hs.all JSON.isStr = true) :
    (hs.filterMap JSON.strOf).map JSON.str = hs := by
  induction hs with
  | nil => rfl
  | cons a rest ih =>
    rw [List.all_cons, Bool.and_eq_true] at h
    obtain ⟨h1, h2⟩ := h
    cases a <;> first | (simp [JSON.isStr] at h1; done) | simp [JSON.strOf, ih h2]

theorem Reaches.trans {a b c : JSON} (h1 : Reaches a b) (h2 : Reaches b c) : Reaches a c := by
  induction h2 with
  | root => exact h1
  | item _ hx ih => exact Reaches.item ih hx
  | field _ hx hk ih => exact Reaches.field ih hx hk

theorem mem_fieldHrefValues_of_mem {fields : List (String × JSON)} {v : JSON}
    (h : ("href", v) ∈ fields) : v ∈ fieldHrefValues fields := by
  induction fields with
  | nil => simp at h
  | cons a rest ih =>
    obtain ⟨k, x⟩ := a
    rcases List.mem_cons.1 h with h | h
    · injection h with h1 h2
      subst h1; subst h2
      simp [fieldHrefValues]
    · simp [fieldHrefValues, ih h]

theorem hrefValues_sub_field {fields : List (String × JSON)} {key : String} {value v : JSON}
    (h : (key, value) ∈ fields) (hk : key ≠ "href") (hv : v ∈ hrefValues value) :
    v ∈ fieldHrefValues fields := by
  induction fields with
  | nil => simp at h
  | cons a rest ih =>
    obtain ⟨k, x⟩ := a
    rcases List.mem_cons.1 h with h | h
    · injection h with h1 h2
      subst h1; subst h2
      simp [fieldHrefValues, hk, hv]
    · simp [fieldHrefValues, ih h]

theorem hrefValues_sub_item {items : List JSON} {x v : JSON}
    (h : x ∈ items) (hv : v ∈ hrefValues x) : v ∈ itemHrefValues items := by
  induction items with
  | nil => simp at h
  | cons a rest ih =>
    rcases List.mem_cons.1 h with h | h
    · subst h; simp [itemHrefValues, hv]
    · simp [itemHrefValues, ih h]

theorem hrefValues_of_reaches {d n : JSON} (h : Reaches d n) :
    ∀ v, v ∈ hrefValues n → v ∈ hrefValues d := by
  induction h with
  | root => exact fun _ hv => hv
  | item _ hx ih =>
    intro v hv
    apply ih
    rw [hrefValues]
    exact hrefValues_sub_item hx hv
  | field _ hx hk ih =>
    intro v hv
    apply ih
    rw [hrefValues]
    exact hrefValues_sub_field hx hk hv

mutual
theorem reaches_of_mem_hrefValues : ∀ (d : JSON) (v : JSON), v ∈ hrefValues d →
    ∃ fields, Reaches d (.obj fields) ∧ ("href", v) ∈ fields
  | .obj fields, v, h => by
    rw [hrefValues] at h
    rcases reaches_of_mem_fieldHrefValues fields v h with h1 | ⟨k, x, hx, hk, fs, hr, hm⟩
    · exact ⟨fields, Reaches.root, h1⟩
    · exact ⟨fs, (Reaches.field Reaches.root hx hk).trans hr, hm⟩
  | .arr items, v, h => by
    rw [hrefValues] at h
    obtain ⟨x, hx, fs, hr, hm⟩ := reaches_of_mem_itemHrefValues items v h
    exact ⟨fs, (Reaches.item Reaches.root hx).trans hr, hm⟩
  | .null, v, h => by simp [hrefValues] at h
  | .bool _, v, h => by simp [hrefValues] at h
  | .number _, v, h => by simp [hrefValues] at h
  | .str _, v, h => by simp [hrefValues] at h
theorem reaches_of_mem_fieldHrefValues : ∀ (fields : List (String × JSON)) (v : JSON),
    v ∈ fieldHrefValues fields →
    ("href", v) ∈ fields ∨ ∃ k x, (k, x) ∈ fields ∧ k ≠ "href" ∧
      ∃ fs, Reaches x (.obj fs) ∧ ("href", v) ∈ fs
  | [], v, h => by simp [fieldHrefValues] at h
  | (key, value) :: rest, v, h => by
    simp only [fieldHrefValues, List.mem_append] at h
    rcases h with h | h
    · by_cases hk : key = "href"
      · simp only [if_pos hk, List.mem_singleton] at h
        subst hk; subst h
        exact Or.inl (List.mem_cons_self _ _)
      · simp only [if_neg hk] at h
        obtain ⟨fs, hr, hm⟩ := reaches_of_mem_hrefValues value v h
        exact Or.inr ⟨key, value, List.mem_cons_self _ _, hk, fs, hr, hm⟩
    · rcases reaches_of_mem_fieldHrefValues rest v h with h1 | ⟨k, x, hx, hk, fs, hr, hm⟩
      · exact Or.inl (List.mem_cons_of_mem _ h1)
      · exact Or.inr ⟨k, x, List.mem_cons_of_mem _ hx, hk, fs, hr, hm⟩
theorem reaches_of_mem_itemHrefValues : ∀ (items : List JSON) (v : JSON),
    v ∈ itemHrefValues items →
    ∃ x, x ∈ items ∧ ∃ fs, Reaches x (.obj fs) ∧ ("href", v) ∈ fs
  | [], v, h => by simp [itemHrefValues] at h
  | item :: rest, v, h => by
    simp only [itemHrefValues, List.mem_append] at h
    rcases h with h | h
    · obtain ⟨fs, hr, hm⟩ := reaches_of_mem_hrefValues item v h
      exact ⟨item, List.mem_cons_self _ _, fs, hr, hm⟩
    · obtain ⟨x, hx, fs, hr, hm⟩ := reaches_of_mem_itemHrefValues rest v h
      exact ⟨x, List.mem_cons_of_mem _ hx, fs, hr, hm⟩
end

theorem mem_hrefValues_iff (d v : JSON) :
    v ∈ hrefValues d ↔ ∃ fields, Reaches d (.obj fields) ∧ ("href", v) ∈ fields := by
  constructor
  · exact reaches_of_mem_hrefValues d v
  · rintro ⟨fields, hr, hm⟩
    apply hrefValues_of_reaches hr
    rw [hrefValues]
    exact mem_fieldHrefValues_of_mem hm

/-! ## Reordering the entries of objects -/

theorem reorder_isStr {v w : JSON} (h : Reorder v w) : v.isStr = w.isStr ∧ v.strOf = w.strOf := by
  cases h <;> simp [JSON.isStr, JSON.strOf]

theorem Sim.append {ka kb ka2 kb2 : List (List String)} {ha hb ha2 hb2 : List JSON}
    (h1 : Sim ka kb ha hb) (h2 : Sim ka2 kb2 ha2 hb2) :
    Sim (ka ++ ka2) (kb ++ kb2) (ha ++ ha2) (hb ++ hb2) := by
  obtain ⟨a1, a2, a3⟩ := h1
  obtain ⟨b1, b2, b3⟩ := h2
  refine ⟨a1.append b1, ?_, ?_⟩
  · simpa using a2.append b2
  · simp [List.all_append, a3, b3]

theorem fields_perm {gs hs : List (String × JSON)} (h : gs.Perm hs) :
    Sim (fieldLeafKeyPaths gs) (fieldLeafKeyPaths hs) (fieldHrefValues gs) (fieldHrefValues hs) := by
  induction h with
  | nil => exact ⟨List.Perm.refl _, List.Perm.refl _, rfl⟩
  | cons a _ ih =>
    obtain ⟨k, v⟩ := a
    simp only [fieldLeafKeyPaths, fieldHrefValues]
    exact Sim.append ⟨List.Perm.refl _, List.Perm.refl _, rfl⟩ ih
  | swap a b l =>
    obtain ⟨k, v⟩ := a
    obtain ⟨k2, v2⟩ := b
    simp only [fieldLeafKeyPaths, fieldHrefValues, Sim, ← List.append_assoc, List.filterMap_append,
      List.all_append]
    refine ⟨List.Perm.append_right _ List.perm_append_comm,
      List.Perm.append_right _ List.perm_append_comm, ?_⟩
    rw [Bool.and_comm (List.all _ _) (List.all _ _)]
  | trans _ _ ih1 ih2 =>
    exact ⟨ih1.1.trans ih2.1, ih1.2.1.trans ih2.2.1, ih1.2.2.trans ih2.2.2⟩

mutual
theorem reorder_sim : ∀ {d e : JSON}, Reorder d e →
    Sim (leafKeyPaths d) (leafKeyPaths e) (hrefValues d) (hrefValues e)
  | _, _, .scalar d _ => ⟨List.Perm.refl _, List.Perm.refl _, rfl⟩
  | _, _, .arr h => by
    simp only [leafKeyPaths, hrefValues]; exact reorderItems_sim h
  | _, _, .obj h hp => by
    simp only [leafKeyPaths, hrefValues]
    have h1 := reorderFields_sim h
    have h2 := fields_perm hp
    exact ⟨h1.1.trans h2.1, h1.2.1.trans h2.2.1, h1.2.2.trans h2.2.2⟩
theorem reorderItems_sim : ∀ {xs ys : List JSON}, ReorderItems xs ys →
    Sim (itemLeafKeyPaths xs) (itemLeafKeyPaths ys) (itemHrefValues xs) (itemHrefValues ys)
  | _, _, .nil => ⟨List.Perm.refl _, List.Perm.refl _, rfl⟩
  | _, _, .cons h hs => by
    simp only [itemLeafKeyPaths, itemHrefValues]
    exact Sim.append (reorder_sim h) (reorderItems_sim hs)
theorem reorderFields_sim : ∀ {fs gs : List (String × JSON)}, ReorderFields fs gs →
    Sim (fieldLeafKeyPaths fs) (fieldLeafKeyPaths gs) (fieldHrefValues fs) (fieldHrefValues gs)
  | _, _, .nil => ⟨List.Perm.refl _, List.Perm.refl _, rfl⟩
  | _, _, @ReorderFields.cons k v w _ _ h hs => by
    simp only [fieldLeafKeyPaths, fieldHrefValues]
    refine Sim.append ?_ (reorderFields_sim hs)
    by_cases hk : k = "href"
    · simp only [if_pos hk]
      have := reorder_isStr h
      refine ⟨List.Perm.refl _, ?_, ?_⟩
      · simp [List.filterMap_cons, this.2]
      · simp [this.1]
    · simp only [if_neg hk]
      have := reorder_sim h
      exact ⟨this.1.map _, this.2.1, this.2.2⟩
end


/-! ## Sorting: consequences -/

theorem sortStrings_spec (l : List String) :
    (sortStrings l).Perm l ∧ (sortStrings l).Sorted (· ≤ ·) := by
  obtain ⟨out, h1, h2, h3⟩ := outerLoop_spec l.length [] l rfl
  have : sortStrings l = out := by simpa [sortStrings] using h1
  rw [this]
  exact ⟨h2, h3⟩

theorem sortStrings_congr {a b : List String} (h : a.Perm b) : sortStrings a = sortStrings b :=
  List.eq_of_perm_of_sorted (((sortStrings_spec a).1.trans h).trans (sortStrings_spec b).1.symm)
    (sortStrings_spec a).2 (sortStrings_spec b).2

/-! ## Trimming -/

theorem rdropWhile_split (p : Char → Bool) (c : Char) (hp : ∀ a, p a = true → a = c)
    (l : List Char) : ∃ k, l = l.rdropWhile p ++ List.replicate k c := by
  induction l using List.reverseRecOn with
  | nil => exact ⟨0, by simp⟩
  | append_singleton l a ih =>
    by_cases ha : p a = true
    · obtain ⟨k, hk⟩ := ih
      refine ⟨k + 1, ?_⟩
      rw [List.rdropWhile_concat_pos _ _ _ ha, List.replicate_succ', ← List.append_assoc,
        ← hk, hp a ha]
    · exact ⟨0, by rw [List.rdropWhile_concat_neg _ _ _ ha]; simp⟩

theorem rdropWhile_append_replicate (p : Char → Bool) (c : Char) (hc : p c = true)
    (l : List Char) (m : Nat) : (l ++ List.replicate m c).rdropWhile p = l.rdropWhile p := by
  induction m with
  | zero => simp
  | succ m ih =>
    rw [List.replicate_succ', ← List.append_assoc, List.rdropWhile_concat_pos _ _ _ hc, ih]

theorem getLast?_rdropWhile (p : Char → Bool) (l : List Char) (c : Char) (hc : p c = true) :
    (l.rdropWhile p).getLast? ≠ some c := by
  intro h
  have hne : l.rdropWhile p ≠ [] := by
    intro h0; rw [h0] at h; simp at h
  have h1 := List.rdropWhile_last_not p l hne
  rw [List.getLast?_eq_getLast _ hne] at h
  injection h with h
  rw [h] at h1
  exact h1 hc

theorem field_keyPaths_ne_nil (fields : List (String × JSON)) :
    ∀ ks ∈ fieldLeafKeyPaths fields, ks ≠ [] := by
  induction fields with
  | nil => intro ks h; simp [fieldLeafKeyPaths] at h
  | cons a rest ih =>
    obtain ⟨key, value⟩ := a
    intro ks h
    simp only [fieldLeafKeyPaths, List.mem_append] at h
    rcases h with h | h
    · by_cases hk : key = "href"
      · simp [hk] at h
      · simp only [if_neg hk, List.mem_map] at h
        obtain ⟨k, _, rfl⟩ := h
        simp
    · exact ih ks h

/-! ## File names -/

theorem digitChar_val (m : Nat) (h : m < 10) : (Nat.digitChar m).toNat - 48 = m := by
  interval_cases m <;> rfl

theorem digitsVal_toDigitsCore (fuel : Nat) : ∀ (n : Nat) (ds : List Char), n < fuel →
    digitsVal (Nat.toDigitsCore 10 fuel n ds) 0 = digitsVal ds n := by
  induction fuel with
  | zero => intro n ds h; omega
  | succ fuel ih =>
    intro n ds h
    simp only [Nat.toDigitsCore]
    have hd := digitChar_val (n % 10) (Nat.mod_lt _ (by decide))
    by_cases h0 : n / 10 = 0
    · rw [if_pos h0]
      have hn : n % 10 = n := Nat.mod_eq_of_lt (by omega)
      simp only [digitsVal, List.foldl_cons, hd, Nat.mul_zero, Nat.zero_add]
      rw [hn]
    · rw [if_neg h0, ih (n / 10) _ (by omega)]
      simp only [digitsVal, List.foldl_cons, hd]
      congr 1
      omega

theorem toString_nat_injective {a b : Nat} (h : toString a = toString b) : a = b := by
  have h1 : Nat.toDigits 10 a = Nat.toDigits 10 b := by
    have := congrArg String.data h
    simpa [toString, Nat.repr, List.asString] using this
  have ha := digitsVal_toDigitsCore (a + 1) a [] (by omega)
  have hb := digitsVal_toDigitsCore (b + 1) b [] (by omega)
  simp only [Nat.toDigits] at h1
  rw [h1, hb] at ha
  simpa [digitsVal] using ha.symm

theorem endpointsFileName_injective {a b : Nat}
    (h : endpointsFileName a = endpointsFileName b) : a = b := by
  apply toString_nat_injective
  have := congrArg String.data h
  simp only [endpointsFileName, String.data_append, List.append_assoc] at this
  have h2 := List.append_cancel_left this
  have h3 := List.append_cancel_right h2
  exact String.ext h3

theorem hrefURLsFileName_injective {a b : Nat}
    (h : hrefURLsFileName a = hrefURLsFileName b) : a = b := by
  apply toString_nat_injective
  have := congrArg String.data h
  simp only [hrefURLsFileName, String.data_append, List.append_assoc] at this
  have h2 := List.append_cancel_left this
  have h3 := List.append_cancel_right h2
  exact String.ext h3

theorem endpoints_ne_hrefURLs (a b : Nat) : endpointsFileName a ≠ hrefURLsFileName b := by
  intro h
  have := congrArg String.data h
  simp only [endpointsFileName, hrefURLsFileName, String.data_append, List.append_assoc] at this
  have h2 := congrArg List.head? this
  simp at h2

/-! ## The writer -/

theorem osCreate_spec (fails : Nat → Bool) (d : Disk) (name : String) :
    (osCreate fails d name).2.log
        = d.log ++ [⟨.create name, (osCreate fails d name).1⟩]
    ∧ (osCreate fails d name).2.files
        = applyEvent d.files ⟨.create name, (osCreate fails d name).1⟩ := by
  unfold osCreate
  by_cases h : fails d.log.length = true
  · simp [h, applyEvent]
  · simp [h, applyEvent]

theorem Fprintln_spec (fails : Nat → Bool) (d : Disk) (name line : String) :
    ∃ ok, (Fprintln fails d name line).log = d.log ++ [⟨.write name line, ok⟩]
      ∧ (Fprintln fails d name line).files = applyEvent d.files ⟨.write name line, ok⟩ := by
  unfold Fprintln
  by_cases h : fails d.log.length = true
  · exact ⟨false, by simp [h, applyEvent]⟩
  · exact ⟨true, by simp [h, applyEvent]⟩

theorem replay_append (files : String → Option String) (a b : List IOEvent) :
    replay files (a ++ b) = replay (replay files a) b := by
  simp [replay]

theorem writeLines_trace (fails : Nat → Bool) (name : String) (lines : List String) :
    ∀ d : Disk, ∃ evs, (writeLines fails name lines d).log = d.log ++ evs
      ∧ evs.map IOEvent.op = lines.map (IOOp.write name)
      ∧ (writeLines fails name lines d).files = replay d.files evs := by
  induction lines with
  | nil => intro d; exact ⟨[], by simp [writeLines, replay]⟩
  | cons line rest ih =>
    intro d
    obtain ⟨ok, h1, h2⟩ := Fprintln_spec fails d name line
    obtain ⟨evs, e1, e2, e3⟩ := ih (Fprintln fails d name line)
    refine ⟨⟨.write name line, ok⟩ :: evs, ?_, ?_, ?_⟩
    · rw [writeLines, e1, h1]; simp
    · simp [e2]
    · rw [writeLines, e3, h2]; simp [replay]

theorem not_failed_create_of_write {evs : List IOEvent} {name : String} {lines : List String}
    (h : evs.map IOEvent.op = lines.map (IOOp.write name)) (n : String) :
    (⟨.create n, false⟩ : IOEvent) ∉ evs := by
  intro hm
  have : IOOp.create n ∈ evs.map IOEvent.op := List.mem_map.2 ⟨_, hm, rfl⟩
  rw [h] at this
  simp at this

theorem writeLoop_cons (fails : Nat → Bool) (i : Nat) (r : Result) (rest : List Result)
    (d : Disk) :
    writeLoop fails i (r :: rest) d =
      if (osCreate fails d (endpointsFileName i)).1 = true then
        if (osCreate fails (osCreate fails d (endpointsFileName i)).2 (hrefURLsFileName i)).1
            = true then
          writeLoop fails (i + 1) rest
            (writeLines fails (hrefURLsFileName i) r.HrefURLs
              (writeLines fails (endpointsFileName i) r.Endpoints
                (osCreate fails (osCreate fails d (endpointsFileName i)).2
                  (hrefURLsFileName i)).2))
        else
          (some "create failed",
            (osCreate fails (osCreate fails d (endpointsFileName i)).2 (hrefURLsFileName i)).2)
      else (some "create failed", (osCreate fails d (endpointsFileName i)).2) := by
  rw [writeLoop]
  cases h1 : osCreate fails d (endpointsFileName i) with
  | mk ok1 d1 =>
    cases ok1 with
    | false => simp
    | true =>
      simp only [if_true]
      cases h2 : osCreate fails d1 (hrefURLsFileName i) with
      | mk ok2 d2 =>
        cases ok2 <;> simp

theorem writeLoop_trace (fails : Nat → Bool) (rs : List Result) :
    ∀ (i : Nat) (d : Disk), ∃ new,
      (writeLoop fails i rs d).2.log = d.log ++ new
      ∧ (writeLoop fails i rs d).2.files = replay d.files new
      ∧ (((writeLoop fails i rs d).1 = none ∧ new.map IOEvent.op = plannedOps i rs
            ∧ ∀ n, (⟨.create n, false⟩ : IOEvent) ∉ new)
          ∨ ((writeLoop fails i rs d).1 ≠ none ∧ ∃ good name rest,
              new = good ++ [⟨.create name, false⟩]
              ∧ (∀ n, (⟨.create n, false⟩ : IOEvent) ∉ good)
              ∧ plannedOps i rs = new.map IOEvent.op ++ rest)) := by
  induction rs with
  | nil =>
    intro i d
    exact ⟨[], by simp [writeLoop], by simp [writeLoop, replay],
      Or.inl ⟨by simp [writeLoop], by simp [plannedOps], by simp⟩⟩
  | cons r rest ih =>
    intro i d
    obtain ⟨c1, c2⟩ := osCreate_spec fails d (endpointsFileName i)
    obtain ⟨c3, c4⟩ := osCreate_spec fails (osCreate fails d (endpointsFileName i)).2
      (hrefURLsFileName i)
    rw [writeLoop_cons]
    by_cases h1 : (osCreate fails d (endpointsFileName i)).1 = true
    · rw [if_pos h1]
      rw [h1] at c1 c2
      by_cases h2 : (osCreate fails (osCreate fails d (endpointsFileName i)).2
          (hrefURLsFileName i)).1 = true
      · rw [if_pos h2]
        rw [h2] at c3 c4
        generalize (osCreate fails (osCreate fails d (endpointsFileName i)).2
          (hrefURLsFileName i)).2 = d2 at c3 c4 ⊢
        generalize (osCreate fails d (endpointsFileName i)).2 = d1 at c1 c2 c3 c4
        obtain ⟨ev1, a1, a2, a3⟩ :=
          writeLines_trace fails (endpointsFileName i) r.Endpoints d2
        obtain ⟨ev2, b1, b2, b3⟩ :=
          writeLines_trace fails (hrefURLsFileName i) r.HrefURLs
            (writeLines fails (endpointsFileName i) r.Endpoints d2)
        obtain ⟨new, n1, n2, n3⟩ := ih (i + 1)
          (writeLines fails (hrefURLsFileName i) r.HrefURLs
            (writeLines fails (endpointsFileName i) r.Endpoints d2))
        have hhead : ∀ n, (⟨.create n, false⟩ : IOEvent) ∉
            ([⟨.create (endpointsFileName i), true⟩,
              ⟨.create (hrefURLsFileName i), true⟩] ++ ev1 ++ ev2 : List IOEvent) := by
          intro n hn
          simp only [List.mem_append, List.mem_cons, List.mem_singleton] at hn
          rcases hn with ((hn | hn | hn) | hn) | hn
          · cases hn
          · cases hn
          · simp at hn
          · exact not_failed_create_of_write a2 n hn
          · exact not_failed_create_of_write b2 n hn
        refine ⟨[⟨.create (endpointsFileName i), true⟩,
            ⟨.create (hrefURLsFileName i), true⟩] ++ ev1 ++ ev2 ++ new, ?_, ?_, ?_⟩
        · rw [n1, b1, a1, c3, c1]; simp
        · rw [n2, b3, a3, c4, c2]; simp [replay]
        · rcases n3 with ⟨e1, e2, e3⟩ | ⟨e1, good, name, rest2, e2, e3, e4⟩
          · refine Or.inl ⟨e1, ?_, ?_⟩
            · simp [plannedOps, a2, b2, e2]
            · intro n hn
              rcases List.mem_append.1 hn with hn | hn
              · exact hhead n hn
              · exact e3 n hn
          · refine Or.inr ⟨e1, [⟨.create (endpointsFileName i), true⟩,
                ⟨.create (hrefURLsFileName i), true⟩] ++ ev1 ++ ev2 ++ good, name, rest2,
              ?_, ?_, ?_⟩
            · rw [e2]; simp
            · intro n hn
              rcases List.mem_append.1 hn with hn | hn
              · exact hhead n hn
              · exact e3 n hn
            · simp [plannedOps, a2, b2, e4]
      · rw [if_neg h2]
        have h2f : (osCreate fails (osCreate fails d (endpointsFileName i)).2
          (hrefURLsFileName i)).1 = false := by simpa using h2
        rw [h2f] at c3 c4
        refine ⟨[⟨.create (endpointsFileName i), true⟩,
            ⟨.create (hrefURLsFileName i), false⟩], by rw [c3, c1]; simp,
          by rw [c4, c2]; simp [replay],
          Or.inr ⟨by simp, [⟨.create (endpointsFileName i), true⟩],
            hrefURLsFileName i,
            r.Endpoints.map (IOOp.write (endpointsFileName i))
              ++ r.HrefURLs.map (IOOp.write (hrefURLsFileName i))
              ++ plannedOps (i + 1) rest, by simp, by simp, ?_⟩⟩
        simp [plannedOps]
    · rw [if_neg h1]
      have h1f : (osCreate fails d (endpointsFileName i)).1 = false := by simpa using h1
      rw [h1f] at c1 c2
      refine ⟨[⟨.create (endpointsFileName i), false⟩], c1, by rw [c2]; simp [replay],
        Or.inr ⟨by simp, [], endpointsFileName i,
          [IOOp.create (hrefURLsFileName i)]
              ++ r.Endpoints.map (IOOp.write (endpointsFileName i))
              ++ r.HrefURLs.map (IOOp.write (hrefURLsFileName i))
              ++ plannedOps (i + 1) rest, by simp, by simp, ?_⟩⟩
      simp [plannedOps]

theorem last_of_failed_create {good pre post : List IOEvent} {x y : IOEvent}
    (h : good ++ [x] = pre ++ y :: post) (hy : y ∉ good) : post = [] := by
  rcases List.eq_nil_or_concat post with hp | ⟨post2, z, hp⟩
  · exact hp
  · subst hp
    have h2 : good ++ [x] = (pre ++ y :: post2) ++ [z] := by simpa using h
    have h3 := List.append_inj_left' h2 rfl
    exact absurd (by rw [h3]; simp) hy

theorem createdNames_append (a b : List IOEvent) :
    createdNames (a ++ b) = createdNames a ++ createdNames b := by
  simp [createdNames]

theorem writeLines_ok (fails : Nat → Bool) (hf : ∀ k, fails k = false) (name : String)
    (lines : List String) : ∀ d : Disk,
    (writeLines fails name lines d).files
        = (fun n => if n = name then (d.files n).map (fun t => t ++ fileText lines)
                    else d.files n)
    ∧ createdNames (writeLines fails name lines d).log = createdNames d.log := by
  induction lines with
  | nil =>
    intro d
    refine ⟨?_, rfl⟩
    funext n
    by_cases hn : n = name <;> simp [writeLines, fileText, hn]
  | cons line rest ih =>
    intro d
    obtain ⟨i1, i2⟩ := ih (Fprintln fails d name line)
    rw [writeLines]
    constructor
    · rw [i1]
      funext n
      by_cases hn : n = name
      · simp [Fprintln, hf, hn, fileText, Option.map_map, Function.comp_def,
          String.append_assoc]
      · simp [Fprintln, hf, hn]
    · rw [i2]
      simp [Fprintln, hf, createdNames_append, createdNames]

theorem fileNames_range (i n : Nat) :
    (List.range' i (n + 1)).flatMap (fun j => [endpointsFileName j, hrefURLsFileName j])
      = endpointsFileName i :: hrefURLsFileName i ::
          (List.range' (i + 1) n).flatMap
            (fun j => [endpointsFileName j, hrefURLsFileName j]) := by
  simp [List.range'_succ]

theorem writeLoop_ok (fails : Nat → Bool) (hf : ∀ k, fails k = false) (rs : List Result) :
    ∀ (i : Nat) (d : Disk),
      (writeLoop fails i rs d).1 = none
      ∧ createdNames (writeLoop fails i rs d).2.log
          = createdNames d.log ++ (List.range' i rs.length).flatMap
              (fun j => [endpointsFileName j, hrefURLsFileName j])
      ∧ (∀ k r, rs[k]? = some r →
          (writeLoop fails i rs d).2.files (endpointsFileName (i + k))
              = some (fileText r.Endpoints)
          ∧ (writeLoop fails i rs d).2.files (hrefURLsFileName (i + k))
              = some (fileText r.HrefURLs))
      ∧ (∀ n, (∀ k, k < rs.length →
              n ≠ endpointsFileName (i + k) ∧ n ≠ hrefURLsFileName (i + k)) →
          (writeLoop fails i rs d).2.files n = d.files n) := by
  induction rs with
  | nil =>
    intro i d
    simp [writeLoop]
  | cons r rest ih =>
    intro i d
    have hc1 : osCreate fails d (endpointsFileName i)
        = (true, ⟨fun n => if n = endpointsFileName i then some "" else d.files n,
            d.log ++ [⟨.create (endpointsFileName i), true⟩]⟩) := by
      simp [osCreate, hf]
    rw [writeLoop, hc1]
    simp only
    have hc2 : osCreate fails
          ⟨fun n => if n = endpointsFileName i then some "" else d.files n,
            d.log ++ [⟨.create (endpointsFileName i), true⟩]⟩ (hrefURLsFileName i)
        = (true, ⟨fun n => if n = hrefURLsFileName i then some ""
                    else if n = endpointsFileName i then some "" else d.files n,
            d.log ++ [⟨.create (endpointsFileName i), true⟩]
              ++ [⟨.create (hrefURLsFileName i), true⟩]⟩) := by
      simp [osCreate, hf]
    rw [hc2]
    simp only
    generalize hd2 : (⟨fun n => if n = hrefURLsFileName i then some ""
                    else if n = endpointsFileName i then some "" else d.files n,
            d.log ++ [⟨.create (endpointsFileName i), true⟩]
              ++ [⟨.create (hrefURLsFileName i), true⟩]⟩ : Disk) = d2
    obtain ⟨a1, a2⟩ := writeLines_ok fails hf (endpointsFileName i) r.Endpoints d2
    obtain ⟨b1, b2⟩ := writeLines_ok fails hf (hrefURLsFileName i) r.HrefURLs
      (writeLines fails (endpointsFileName i) r.Endpoints d2)
    generalize hd4 : writeLines fails (hrefURLsFileName i) r.HrefURLs
      (writeLines fails (endpointsFileName i) r.Endpoints d2) = d4 at b1 b2 ⊢
    obtain ⟨i1, i2, i3, i4⟩ := ih (i + 1) d4
    have hne : endpointsFileName i ≠ hrefURLsFileName i := endpoints_ne_hrefURLs i i
    have f4e : d4.files (endpointsFileName i) = some (fileText r.Endpoints) := by
      rw [b1, a1, ← hd2]; simp [hne]
    have f4h : d4.files (hrefURLsFileName i) = some (fileText r.HrefURLs) := by
      rw [b1, a1, ← hd2]; simp [hne.symm]
    have f4o : ∀ n, n ≠ endpointsFileName i → n ≠ hrefURLsFileName i →
        d4.files n = d.files n := by
      intro n h1 h2
      rw [b1, a1, ← hd2]; simp [h1, h2]
    have later : ∀ k, endpointsFileName i ≠ endpointsFileName (i + 1 + k)
        ∧ endpointsFileName i ≠ hrefURLsFileName (i + 1 + k)
        ∧ hrefURLsFileName i ≠ endpointsFileName (i + 1 + k)
        ∧ hrefURLsFileName i ≠ hrefURLsFileName (i + 1 + k) := by
      intro k
      refine ⟨fun h => ?_, endpoints_ne_hrefURLs _ _, (endpoints_ne_hrefURLs _ _).symm,
        fun h => ?_⟩
      · have := endpointsFileName_injective h; omega
      · have := hrefURLsFileName_injective h; omega
    refine ⟨i1, ?_, ?_, ?_⟩
    · rw [i2, b2, a2, ← hd2, List.length_cons, fileNames_range]
      simp [createdNames_append, createdNames]
    · intro k r2 hk
      cases k with
      | zero =>
        simp only [List.getElem?_cons_zero, Option.some.injEq] at hk
        subst hk
        simp only [Nat.add_zero]
        rw [i4 _ (fun k _ => ⟨(later k).1, (later k).2.1⟩),
          i4 _ (fun k _ => ⟨(later k).2.2.1, (later k).2.2.2⟩)]
        exact ⟨f4e, f4h⟩
      | succ k =>
        simp only [List.getElem?_cons_succ] at hk
        have := i3 k r2 hk
        have e : i + (k + 1) = i + 1 + k := by omega
        rw [e]
        exact this
    · intro n hn
      have h0 := hn 0 (by simp)
      rw [i4 n (fun k hk => by
        have := hn (k + 1) (by simpa using hk)
        have e : i + (k + 1) = i + 1 + k := by omega
        rwa [e] at this)]
      exact f4o n h0.1 h0.2

theorem lineCount_fileText (l : List String) (h : ∀ s ∈ l, '\n' ∉ s.data) :
    lineCount (fileText l) = l.length := by
  induction l with
  | nil => rfl
  | cons s rest ih =>
    have h1 : s.data.count '\n' = 0 := List.count_eq_zero.2 (h s (List.mem_cons_self _ _))
    have h2 := ih (fun t ht => h t (List.mem_cons_of_mem _ ht))
    simp only [lineCount] at h2 ⊢
    simp only [fileText, String.data_append, List.count_append, h1, h2, List.length_cons]
    have h3 : "\n".data.count '\n' = 1 := by decide
    rw [h3]
    omega

theorem fileNames_nodup (n : Nat) :
    ((List.range n).flatMap
      (fun i => [endpointsFileName i, hrefURLsFileName i])).Nodup := by
  rw [List.nodup_flatMap]
  constructor
  · intro i _
    simp [endpoints_ne_hrefURLs]
  · refine List.Pairwise.imp_of_mem ?_ (List.nodup_range n)
    intro a b _ _ hab
    have h1 : endpointsFileName a ≠ endpointsFileName b :=
      fun h => hab (endpointsFileName_injective h)
    have h2 : hrefURLsFileName a ≠ hrefURLsFileName b :=
      fun h => hab (hrefURLsFileName_injective h)
    simp [Function.onFun, h1, h2, Ne.symm h1, Ne.symm h2, endpoints_ne_hrefURLs,
      (endpoints_ne_hrefURLs _ _).symm]

theorem fileNames_length (n : Nat) :
    ((List.range n).flatMap
      (fun i => [endpointsFileName i, hrefURLsFileName i])).length = 2 * n := by
  induction n with
  | zero => rfl
  | succ n ih =>
    rw [List.range_succ, List.flatMap_append, List.length_append, ih]
    simp
    omega

theorem mem_fileNames (n : Nat) (name : String) :
    name ∈ (List.range n).flatMap (fun i => [endpointsFileName i, hrefURLsFileName i])
      ↔ ∃ i, i < n ∧ (name = endpointsFileName i ∨ name = hrefURLsFileName i) := by
  simp [List.mem_flatMap]

/-! ## The batch loop -/

theorem batchLoop_eq (calls : List (String × Outcome)) : ∀ data : List Result,
    batchLoop calls data =
      if calls.all (fun c => c.2.isSome) then some (data ++ calls.filterMap okResult)
      else none := by
  induction calls with
  | nil => intro data; simp [batchLoop]
  | cons c rest ih =>
    intro data
    obtain ⟨line, o⟩ := c
    cases o with
    | none => simp [batchLoop]
    | some v =>
      cases v with
      | error e =>
        simp only [batchLoop, ih, List.all_cons, Option.isSome_some, Bool.true_and,
          List.filterMap_cons, okResult]
      | ok r =>
        simp only [batchLoop, ih, List.all_cons, Option.isSome_some, Bool.true_and,
          List.filterMap_cons, okResult, List.append_assoc, List.singleton_append]

theorem length_filterMap_okResult (calls : List (String × Outcome)) :
    (calls.filterMap okResult).length = calls.countP succeeded := by
  induction calls with
  | nil => rfl
  | cons c rest ih =>
    obtain ⟨line, o⟩ := c
    cases o with
    | none => simp [okResult, succeeded, List.filterMap_cons, ih]
    | some v =>
      cases v with
      | error e => simp [okResult, succeeded, List.filterMap_cons, ih]
      | ok r => simp [okResult, succeeded, List.filterMap_cons, ih]

/-! # The claims -/

/-- C1: for a document in which every value under a key named "href" is a string, the walk
returns a Result whose hrefs are exactly the values of the "href" keys of the objects it reaches
and whose endpoints hold exactly one entry "/" + k1 + "/" + k2 + ... per scalar leaf reached
through at least one object key (array elements keep their array's path); for any other
visiting order of the object entries the two lists are permutations of these.  The href
values are those of the entries "href" of the objects reached through array elements and
non-href entries.  The two documents of the specification give (["/a/b"], ["X"]) and
(["/a", "/a"], ["Y"]). -/
theorem C1_walk_result (d : JSON) (h : hrefsAreStrings d = true) :
    (∃ r, walk d = some r ∧ r.HrefURLs.map JSON.str = hrefValues d
        ∧ r.Endpoints = specEndpoints d)
    ∧ (∀ v, v ∈ hrefValues d ↔
        ∃ fields, Reaches d (.obj fields) ∧ ("href", v) ∈ fields)
    ∧ (∀ e, Reorder d e → ∃ r, walk e = some r
        ∧ (r.HrefURLs.map JSON.str).Perm (hrefValues d)
        ∧ r.Endpoints.Perm (specEndpoints d))
    ∧ walk (.obj [("href", .str "X"), ("a", .obj [("b", .number 1)])])
        = some ⟨["/a/b"], ["X"]⟩
    ∧ walk (.obj [("a", .arr [.number 1, .number 2, .obj [("href", .str "Y")]])])
        = some ⟨["/a", "/a"], ["Y"]⟩ := by
  have hall := hrefsAreStrings_all d h
  refine ⟨?_, mem_hrefValues_iff d, ?_, by decide, by decide⟩
  · refine ⟨_, by rw [walk_eq, if_pos hall], map_str_filterMap _ hall, rfl⟩
  · intro e he
    obtain ⟨s1, s2, s3⟩ := reorder_sim he
    have halle : (hrefValues e).all JSON.isStr = true := by rw [← s3]; exact hall
    refine ⟨_, by rw [walk_eq, if_pos halle], ?_, ?_⟩
    · have := (s2.symm.map JSON.str)
      rwa [map_str_filterMap _ hall] at this
    · exact (s1.symm.filter _).map _

/-- C1 at the document with an href entry and a nested object. -/
theorem C1_walk_result_witness :
    hrefsAreStrings (.obj [("href", .str "X"), ("a", .obj [("b", .number 1)])]) = true
    ∧ ∃ r, walk (.obj [("href", .str "X"), ("a", .obj [("b", .number 1)])]) = some r
        ∧ r.HrefURLs.map JSON.str
            = hrefValues (.obj [("href", .str "X"), ("a", .obj [("b", .number 1)])])
        ∧ r.Endpoints = specEndpoints (.obj [("href", .str "X"), ("a", .obj [("b", .number 1)])]) :=
  ⟨by decide,
    (C1_walk_result (.obj [("href", .str "X"), ("a", .obj [("b", .number 1)])]) (by decide)).1⟩

/-- C2, as stated, fails at the root array `[1, 2]`: the document has no "href" key and two
leaf scalars, neither of which is the root, yet the walk returns no endpoint at all, so there
is no Result holding one entry per such leaf.  (`ScrapeData` does not even walk this body: it
is not decoded into the map.) -/
theorem C2_root_array_counterexample :
    noHrefKey (.arr [.number 1, .number 2]) = true
    ∧ ScrapeData (fun _ => .ok (some (.arr [.number 1, .number 2]))) "http://site"
        = some (.error
            "json: cannot unmarshal array into Go value of type map[string]interface \x7b\x7d")
    ∧ (nonRootLeafKeyPaths (.arr [.number 1, .number 2])).length = 2
    ∧ walk (.arr [.number 1, .number 2]) = some ⟨[], []⟩
    ∧ ¬ ∃ r, walk (.arr [.number 1, .number 2]) = some r ∧ r.HrefURLs = []
        ∧ r.Endpoints.Perm
            ((nonRootLeafKeyPaths (.arr [.number 1, .number 2])).map endpointOf) := by
  refine ⟨by decide, rfl, by decide, by decide, ?_⟩
  rintro ⟨r, hr, _, hp⟩
  have h0 : walk (.arr [.number 1, .number 2]) = some ⟨[], []⟩ := by decide
  rw [h0] at hr
  injection hr with hr
  subst hr
  have := hp.length_eq
  revert this
  decide

/-- C2 (amended): for a document with no key named "href" anywhere, the walk returns an empty
hrefs list and exactly one endpoint per leaf scalar reached through at least one object key,
equal to its key path; leaves reached through arrays only get none.  When the root is an
object these are all the leaf scalars of the document. -/
theorem C2_walk_without_href (d : JSON) (h : noHrefKey d = true) :
    walk d = some ⟨specEndpoints d, []⟩
    ∧ ∀ fields, d = .obj fields → specEndpoints d = (nonRootLeafKeyPaths d).map endpointOf := by
  constructor
  · have h0 := noHrefKey_hrefValues d h
    rw [walk_eq, h0]; rfl
  · rintro fields rfl
    have : (leafKeyPaths (.obj fields)).filter (fun ks => ks ≠ []) = leafKeyPaths (.obj fields) := by
      rw [List.filter_eq_self]
      intro ks hks
      rw [leafKeyPaths] at hks
      simpa using field_keyPaths_ne_nil fields ks hks
    unfold specEndpoints nonRootLeafKeyPaths
    rw [this]
    rfl

/-- C2 (amended) at an object with a nested array. -/
theorem C2_walk_without_href_witness :
    noHrefKey (.obj [("a", .arr [.number 1, .str "s"]), ("b", .null)]) = true
    ∧ walk (.obj [("a", .arr [.number 1, .str "s"]), ("b", .null)])
        = some ⟨specEndpoints (.obj [("a", .arr [.number 1, .str "s"]), ("b", .null)]), []⟩ :=
  ⟨by decide,
    (C2_walk_without_href (.obj [("a", .arr [.number 1, .str "s"]), ("b", .null)])
      (by decide)).1⟩

/-- C3: `sortStrings l` is in ascending order (every pair, in particular every adjacent pair,
is ordered by `≤`) and is a permutation of `l`: same length, same number of occurrences of
every string. -/
theorem C3_sortStrings_sorts (l : List String) :
    (sortStrings l).Sorted (· ≤ ·)
    ∧ (sortStrings l).Chain' (· ≤ ·)
    ∧ (sortStrings l).Perm l
    ∧ (sortStrings l).length = l.length
    ∧ ∀ s, (sortStrings l).count s = l.count s := by
  obtain ⟨hp, hs⟩ := sortStrings_spec l
  exact ⟨hs, List.Pairwise.chain' hs, hp, hp.length_eq, fun s => hp.count_eq s⟩

/-- C4: in batch mode the loop runs to its end unless a call panics, and the batch it then
holds is exactly the list of the Results of the lines whose `ScrapeData` call succeeded, in
file order: its length is the number of successful lines, and the Result of a successful line
sits at the index that counts the successful lines before it, so a failed line takes no index.
With three lines of which the second fails the batch has the two Results of lines 1 and 3 at
indices 0 and 1. -/
theorem C4_batch_of_successes (calls : List (String × Outcome)) :
    (batchLoop calls [] = none ↔ ∃ c, c ∈ calls ∧ c.2 = none)
    ∧ ((∀ c, c ∈ calls → c.2 ≠ none) → batchLoop calls [] = some (calls.filterMap okResult))
    ∧ (∀ batch, batchLoop calls [] = some batch →
        batch = calls.filterMap okResult
        ∧ batch.length = calls.countP succeeded
        ∧ ∀ p line r, calls[p]? = some (line, some (.ok r)) →
            batch[(calls.take p).countP succeeded]? = some r)
    ∧ ∀ (l1 l2 l3 e : String) (r1 r3 : Result),
        batchLoop [(l1, some (.ok r1)), (l2, some (.error e)), (l3, some (.ok r3))] []
          = some [r1, r3] := by
  refine ⟨?_, ?_, ?_, ?_⟩
  · rw [batchLoop_eq]
    by_cases h : calls.all (fun c => c.2.isSome) = true
    · simp only [if_pos h, reduceCtorEq, false_iff]
      rintro ⟨c, hc, hn⟩
      have := List.all_eq_true.1 h c hc
      rw [hn] at this
      cases this
    · simp only [if_neg h, true_iff]
      simp only [List.all_eq_true, not_forall] at h
      obtain ⟨c, hc, hn⟩ := h
      refine ⟨c, hc, ?_⟩
      cases hc2 : c.2 with
      | none => rfl
      | some v => rw [hc2] at hn; simp at hn
  · intro hall
    have h : calls.all (fun c => c.2.isSome) = true := by
      rw [List.all_eq_true]
      intro c hc
      exact Option.isSome_iff_ne_none.2 (hall c hc)
    rw [batchLoop_eq, if_pos h, List.nil_append]
  · intro batch hb
    rw [batchLoop_eq] at hb
    by_cases h : calls.all (fun c => c.2.isSome) = true
    · rw [if_pos h] at hb
      injection hb with hb
      simp only [List.nil_append] at hb
      subst hb
      refine ⟨rfl, length_filterMap_okResult calls, ?_⟩
      intro p line r hp
      have hsplit : calls = calls.take p ++ (line, some (.ok r)) :: calls.drop (p + 1) := by
        have hlt : p < calls.length := by
          by_contra hge
          rw [List.getElem?_eq_none (by omega)] at hp
          cases hp
        have hget : calls[p] = (line, some (.ok r)) := by
          rw [List.getElem?_eq_getElem hlt] at hp
          injection hp
        rw [← hget, List.getElem_cons_drop, List.take_append_drop]
      have hfm : calls.filterMap okResult
          = (calls.take p).filterMap okResult ++ r :: (calls.drop (p + 1)).filterMap okResult := by
        conv_lhs => rw [hsplit]
        simp [List.filterMap_append, List.filterMap_cons, okResult]
      rw [hfm, ← length_filterMap_okResult, List.getElem?_append_right (Nat.le_refl _)]
      simp
    · rw [if_neg h] at hb
      cases hb
  · intro l1 l2 l3 e r1 r3
    rfl

/-- C5, as stated, fails for an entry that contains a newline: the endpoints file of the
batch with the single endpoint "/a\nb" (the path the walk gives to the key "a\nb") holds two
lines for its one entry. -/
theorem C5_newline_entry_counterexample :
    walk (.obj [("a\nb", .number 1)]) = some ⟨["/a\nb"], []⟩
    ∧ (WriteResults (fun _ => false) (SortResults [⟨["/a\nb"], []⟩]) (fun _ => none)).2.files
        "endpoints_0.txt" = some "/a\nb\n"
    ∧ lineCount "/a\nb\n" = 2
    ∧ (["/a\nb"] : List String).length = 1
    ∧ ¬ (∀ text, (WriteResults (fun _ => false) (SortResults [⟨["/a\nb"], []⟩])
          (fun _ => none)).2.files "endpoints_0.txt" = some text →
        lineCount text = (["/a\nb"] : List String).length) := by
  have h : (WriteResults (fun _ => false) (SortResults [⟨["/a\nb"], []⟩])
      (fun _ => none)).2.files "endpoints_0.txt" = some "/a\nb\n" := by decide
  refine ⟨by decide, h, by decide, rfl, ?_⟩
  intro hall
  have := hall _ h
  revert this
  decide

/-- C5 (amended): on a file system where no create and no write fails, `SortResults` followed
by `WriteResults` on a batch of `n` Results returns no error and creates exactly the `2n`
pairwise different files `endpoints_<i>.txt`, `href_urls_<i>.txt` for `i = 0 .. n-1`; every
other file is left as it was; each created file holds the sorted entries of its list, each
followed by a newline, and has as many lines as the list has entries whenever no entry of the
list contains a newline. -/
theorem C5_files_of_batch (fails : Nat → Bool) (hf : ∀ k, fails k = false)
    (batch : List Result) (files : String → Option String) :
    (WriteResults fails (SortResults batch) files).1 = none
    ∧ createdNames (WriteResults fails (SortResults batch) files).2.log
        = (List.range batch.length).flatMap
            (fun i => [endpointsFileName i, hrefURLsFileName i])
    ∧ (createdNames (WriteResults fails (SortResults batch) files).2.log).Nodup
    ∧ (createdNames (WriteResults fails (SortResults batch) files).2.log).length
        = 2 * batch.length
    ∧ (∀ n, n ∉ createdNames (WriteResults fails (SortResults batch) files).2.log →
        (WriteResults fails (SortResults batch) files).2.files n = files n)
    ∧ (∀ i r, batch[i]? = some r →
        (WriteResults fails (SortResults batch) files).2.files (endpointsFileName i)
            = some (fileText (sortStrings r.Endpoints))
        ∧ (WriteResults fails (SortResults batch) files).2.files (hrefURLsFileName i)
            = some (fileText (sortStrings r.HrefURLs))
        ∧ (sortStrings r.Endpoints).Sorted (· ≤ ·)
        ∧ (sortStrings r.HrefURLs).Sorted (· ≤ ·)
        ∧ ((∀ s ∈ r.Endpoints, '\n' ∉ s.data) →
            lineCount (fileText (sortStrings r.Endpoints)) = r.Endpoints.length)
        ∧ ((∀ s ∈ r.HrefURLs, '\n' ∉ s.data) →
            lineCount (fileText (sortStrings r.HrefURLs)) = r.HrefURLs.length)) := by
  obtain ⟨w1, w2, w3, w4⟩ := writeLoop_ok fails hf (SortResults batch) 0 ⟨files, []⟩
  have hlen : (SortResults batch).length = batch.length := by simp [SortResults]
  have hnames : createdNames (WriteResults fails (SortResults batch) files).2.log
      = (List.range batch.length).flatMap
          (fun i => [endpointsFileName i, hrefURLsFileName i]) := by
    unfold WriteResults
    rw [w2, hlen, List.range_eq_range']
    simp [createdNames]
  refine ⟨w1, hnames, ?_, ?_, ?_, ?_⟩
  · rw [hnames]; exact fileNames_nodup _
  · rw [hnames]; exact fileNames_length _
  · intro n hn
    rw [hnames, mem_fileNames] at hn
    apply w4 n
    intro k hk
    rw [hlen] at hk
    simp only [Nat.zero_add]
    exact ⟨fun h => hn ⟨k, hk, Or.inl h⟩, fun h => hn ⟨k, hk, Or.inr h⟩⟩
  · intro i r hi
    have hs : (SortResults batch)[i]?
        = some ⟨sortStrings r.Endpoints, sortStrings r.HrefURLs⟩ := by
      simp [SortResults, List.getElem?_map, hi]
    have := w3 i _ hs
    simp only [Nat.zero_add] at this
    refine ⟨this.1, this.2, (sortStrings_spec _).2, (sortStrings_spec _).2, ?_, ?_⟩
    · intro hno
      rw [lineCount_fileText _ (fun s hs => hno s ((sortStrings_spec _).1.subset hs))]
      exact (sortStrings_spec _).1.length_eq
    · intro hno
      rw [lineCount_fileText _ (fun s hs => hno s ((sortStrings_spec _).1.subset hs))]
      exact (sortStrings_spec _).1.length_eq

/-- C5 (amended) at a batch of two Results on an empty directory. -/
theorem C5_files_of_batch_witness :
    (∀ k, (fun _ : Nat => false) k = false)
    ∧ createdNames (WriteResults (fun _ => false)
        (SortResults [⟨["/b", "/a"], ["y", "x"]⟩, ⟨["/c"], []⟩]) (fun _ => none)).2.log
        = (List.range
            ([⟨["/b", "/a"], ["y", "x"]⟩, ⟨["/c"], []⟩] : List Result).length).flatMap
            (fun i => [endpointsFileName i, hrefURLsFileName i]) :=
  ⟨fun _ => rfl,
    (C5_files_of_batch (fun _ => false) (fun _ => rfl)
      [⟨["/b", "/a"], ["y", "x"]⟩, ⟨["/c"], []⟩] (fun _ => none)).2.1⟩

/-- C6: the URL requested for the target `t` is `t` without its trailing slashes followed by
"/wp-json": `t` is some `base` followed by slashes only, `base` does not end in a slash, and
the URL is `base ++ "/wp-json"`; adding trailing slashes to a target does not change the URL. -/
theorem C6_requestURL_trims (t : String) :
    (∃ base k, t = base ++ ⟨List.replicate k '/'⟩ ∧ base.data.getLast? ≠ some '/'
        ∧ requestURL t = base ++ "/wp-json")
    ∧ ∀ m, requestURL (t ++ ⟨List.replicate m '/'⟩) = requestURL t := by
  have hp : ∀ a, ("/".data.contains a) = true → a = '/' := by
    intro a ha
    simpa using ha
  constructor
  · obtain ⟨k, hk⟩ := rdropWhile_split (fun c => "/".data.contains c) '/' hp t.data
    refine ⟨TrimRight t "/", k, ?_, ?_, rfl⟩
    · apply String.ext
      simpa [TrimRight] using hk
    · exact getLast?_rdropWhile _ _ _ (by decide)
  · intro m
    simp only [requestURL, TrimRight, String.data_append]
    rw [rdropWhile_append_replicate _ _ (by decide)]

/-- C7, as stated, fails when a write fails: with the third file operation (the first
`Fprintln`) failing, `WriteResults` still writes the next entry and returns no error. -/
theorem C7_failed_write_counterexample :
    (WriteResults (fun k => k == 2) [⟨["/a", "/b"], []⟩] (fun _ => none)).1 = none
    ∧ (WriteResults (fun k => k == 2) [⟨["/a", "/b"], []⟩] (fun _ => none)).2.log
        = [⟨.create "endpoints_0.txt", true⟩, ⟨.create "href_urls_0.txt", true⟩,
            ⟨.write "endpoints_0.txt" "/a", false⟩, ⟨.write "endpoints_0.txt" "/b", true⟩]
    ∧ (WriteResults (fun k => k == 2) [⟨["/a", "/b"], []⟩] (fun _ => none)).2.files
        "endpoints_0.txt" = some "/b\n" := by
  decide

/-- C7 (amended): `WriteResults` returns an error exactly when a file creation fails; the
failed creation is the last operation it carries out, so no further creation or write
follows; the operations carried out are an initial part of the operations the batch calls for,
all of them when no error is returned, whatever writes failed on the way (a failed write is
not noticed); and the files left are those produced by the operations carried out, nothing
being removed or rolled back. -/
theorem C7_create_failure_aborts (fails : Nat → Bool) (results : List Result)
    (files : String → Option String) :
    ((WriteResults fails results files).1 ≠ none ↔
      ∃ name, (⟨.create name, false⟩ : IOEvent) ∈ (WriteResults fails results files).2.log)
    ∧ (∀ pre name post,
        (WriteResults fails results files).2.log = pre ++ ⟨.create name, false⟩ :: post →
        post = [])
    ∧ (∃ rest, plannedOps 0 results
          = (WriteResults fails results files).2.log.map IOEvent.op ++ rest
        ∧ ((WriteResults fails results files).1 = none → rest = []))
    ∧ (WriteResults fails results files).2.files
        = replay files (WriteResults fails results files).2.log := by
  obtain ⟨new, t1, t2, t3⟩ := writeLoop_trace fails results 0 ⟨files, []⟩
  simp only [List.nil_append] at t1
  unfold WriteResults
  rw [t1, t2]
  rcases t3 with ⟨e1, e2, e3⟩ | ⟨e1, good, name, rest, e2, e3, e4⟩
  · refine ⟨?_, ?_, ⟨[], by simp [e2], fun _ => rfl⟩, rfl⟩
    · simp only [e1, ne_eq, not_true_eq_false, false_iff]
      rintro ⟨n, hn⟩
      exact e3 n hn
    · intro pre n post hp
      exact absurd (by rw [hp]; simp) (e3 n)
  · refine ⟨?_, ?_, ⟨rest, e4, fun h => absurd h e1⟩, rfl⟩
    · simp only [e1, ne_eq, not_false_eq_true, true_iff]
      exact ⟨name, by rw [e2]; simp⟩
    · intro pre n post hp
      rw [e2] at hp
      exact last_of_failed_create hp (e3 n)

/-- C8, as stated, fails at the body `42`: decoding it into the map fails, and `ScrapeData`
returns an error instead of a Result with two empty lists. -/
theorem C8_root_number_counterexample :
    ScrapeData (fun _ => .ok (some (.number 42))) "http://site"
      = some (.error
          "json: cannot unmarshal number into Go value of type map[string]interface \x7b\x7d")
    ∧ ScrapeData (fun _ => .ok (some (.number 42))) "http://site"
      ≠ some (.ok ⟨[], []⟩) := by
  constructor
  · rfl
  · intro h
    have h2 : ScrapeData (fun _ => .ok (some (.number 42))) "http://site"
      = some (.error
          "json: cannot unmarshal number into Go value of type map[string]interface \x7b\x7d") :=
      rfl
    rw [h2] at h
    injection h with h
    cases h

/-- C8 (amended): on a root-level scalar the walk itself adds nothing (endpoints = [] and
hrefs = []), but `ScrapeData` decodes the body into a map first: the document `null` decodes
to the empty map and yields the Result with two empty lists, while a bare string, number or
boolean makes the decoding fail, and `ScrapeData` returns an error and no Result. -/
theorem C8_root_scalar (httpGet : String → Except String (Option JSON)) (url : String)
    (d : JSON) (hs : d.isScalar = true) (hb : httpGet (requestURL url) = .ok (some d)) :
    walk d = some ⟨[], []⟩
    ∧ (d = .null → ScrapeData httpGet url = some (.ok ⟨[], []⟩))
    ∧ (d ≠ .null → ∃ e, ScrapeData httpGet url = some (.error e)) := by
  cases d with
  | null =>
    refine ⟨rfl, fun _ => ?_, fun h => absurd rfl h⟩
    simp [ScrapeData, hb, unmarshalMap, traverse, traverseFields, emptyResult]
  | bool b =>
    refine ⟨rfl, ?_, fun _ => ⟨_, by simp only [ScrapeData, hb, unmarshalMap]; rfl⟩⟩
    intro h; cases h
  | number n =>
    refine ⟨rfl, ?_, fun _ => ⟨_, by simp only [ScrapeData, hb, unmarshalMap]; rfl⟩⟩
    intro h; cases h
  | str s =>
    refine ⟨rfl, ?_, fun _ => ⟨_, by simp only [ScrapeData, hb, unmarshalMap]; rfl⟩⟩
    intro h; cases h
  | arr items => simp [JSON.isScalar] at hs
  | obj fields => simp [JSON.isScalar] at hs

/-- C8 (amended) at the body `42`. -/
theorem C8_root_scalar_witness :
    JSON.isScalar (.number 42) = true
    ∧ walk (.number 42) = some ⟨[], []⟩
    ∧ ∃ e, ScrapeData (fun _ => .ok (some (.number 42))) "http://site" = some (.error e) :=
  ⟨rfl,
    (C8_root_scalar (fun _ => .ok (some (.number 42))) "http://site" (.number 42) rfl rfl).1,
    (C8_root_scalar (fun _ => .ok (some (.number 42))) "http://site" (.number 42) rfl rfl).2.2
      (by intro h; cases h)⟩

/-- C9: for two documents that differ only in the order in which the entries of their objects
are visited, the walk fails on one exactly when it fails on the other, and when both return,
sorting gives the same endpoints list and the same hrefs list. -/
theorem C9_order_irrelevant (d e : JSON) (h : Reorder d e) :
    (walk d = none ↔ walk e = none)
    ∧ ∀ r s, walk d = some r → walk e = some s →
        sortStrings r.Endpoints = sortStrings s.Endpoints
        ∧ sortStrings r.HrefURLs = sortStrings s.HrefURLs
        ∧ SortResults [r] = SortResults [s] := by
  obtain ⟨s1, s2, s3⟩ := reorder_sim h
  rw [walk_eq, walk_eq, s3]
  constructor
  · by_cases hall : (hrefValues e).all JSON.isStr = true <;> simp [hall]
  · intro r s hr hs
    by_cases hall : (hrefValues e).all JSON.isStr = true
    · rw [if_pos hall] at hr hs
      injection hr with hr
      injection hs with hs
      subst hr; subst hs
      have e1 : sortStrings (specEndpoints d) = sortStrings (specEndpoints e) :=
        sortStrings_congr ((s1.filter _).map _)
      have e2 := sortStrings_congr s2
      exact ⟨e1, e2, by simp [SortResults, e1, e2]⟩
    · rw [if_neg hall] at hr
      cases hr

/-- C9 at an object whose two entries are visited in either order. -/
theorem C9_order_irrelevant_witness :
    Reorder (.obj [("b", .number 2), ("href", .str "X")])
      (.obj [("href", .str "X"), ("b", .number 2)])
    ∧ (walk (.obj [("b", .number 2), ("href", .str "X")]) = none
        ↔ walk (.obj [("href", .str "X"), ("b", .number 2)]) = none)
    ∧ ∀ r s, walk (.obj [("b", .number 2), ("href", .str "X")]) = some r →
        walk (.obj [("href", .str "X"), ("b", .number 2)]) = some s →
        sortStrings r.Endpoints = sortStrings s.Endpoints
        ∧ sortStrings r.HrefURLs = sortStrings s.HrefURLs
        ∧ SortResults [r] = SortResults [s] :=
  ⟨Reorder.obj (ReorderFields.cons (Reorder.scalar (.number 2) rfl)
      (ReorderFields.cons (Reorder.scalar (.str "X") rfl) ReorderFields.nil))
      (List.Perm.swap _ _ _),
    C9_order_irrelevant _ _ (Reorder.obj (ReorderFields.cons (Reorder.scalar (.number 2) rfl)
      (ReorderFields.cons (Reorder.scalar (.str "X") rfl) ReorderFields.nil))
      (List.Perm.swap _ _ _))⟩

/-- C10: the walk of a document panics (returns no Result) if and only if some object it
reaches through array elements and non-href entries has an entry "href" whose value is not a
string; when every such value is a string the walk completes and returns a Result. -/
theorem C10_walk_panics_iff (d : JSON) :
    (walk d = none ↔
      ∃ fields value, Reaches d (.obj fields) ∧ ("href", value) ∈ fields
        ∧ value.isStr = false)
    ∧ ((∀ fields value, Reaches d (.obj fields) → ("href", value) ∈ fields →
          value.isStr = true) → ∃ r, walk d = some r) := by
  have key : (hrefValues d).all JSON.isStr = true ↔
      ∀ fields value, Reaches d (.obj fields) → ("href", value) ∈ fields →
        value.isStr = true := by
    rw [List.all_eq_true]
    constructor
    · intro hall fields value hr hm
      exact hall value ((mem_hrefValues_iff d value).2 ⟨fields, hr, hm⟩)
    · intro hall value hv
      obtain ⟨fields, hr, hm⟩ := (mem_hrefValues_iff d value).1 hv
      exact hall fields value hr hm
  constructor
  · rw [walk_eq]
    by_cases hall : (hrefValues d).all JSON.isStr = true
    · simp only [if_pos hall, reduceCtorEq, false_iff]
      rintro ⟨fields, value, hr, hm, hv⟩
      have := key.1 hall fields value hr hm
      rw [hv] at this
      cases this
    · simp only [if_neg hall, true_iff]
      by_contra hne
      apply hall
      rw [key]
      intro fields value hr hm
      by_contra hv
      exact hne ⟨fields, value, hr, hm, by simpa using hv⟩
  · intro hall
    exact ⟨_, by rw [walk_eq, if_pos (key.2 hall)]⟩

end WPJSONEXT
